import Mathlib

/-!
Verification of the tag-resolution policy of `boxtown/gotag`.

The definitions below are a shallow embedding of `lib.go` of the `gotag`
package (the canonical version of the repository): the Levenshtein
edit-distance function, the `TestContext` policy state with its
registration and decision operations, and the config-loading entry points.
Go maps `map[string]bool` used as string sets are modelled as duplicate-free
lists (insertion adds a key only when absent, mirroring map-key semantics);
Go's unspecified map iteration order becomes the list order, which the
theorems only use existentially.  Go `int` values are modelled as `Int`
(the edit-distance threshold, which may be negative) or as `Nat`
(lengths and DP cells of `levenshtein`, which are provably non-negative
and far below any machine bound for representable strings).
Go strings are byte sequences; tags are modelled by their character lists
(`String.data`), which agrees with the byte view on ASCII tags, and the
edit-distance development is generic in the alphabet, so it applies to
the byte-level view as well.
-/

namespace Gotag


/-- Embeds the variadic `min` helper of `lib.go`: returns 0 when no
values are passed, otherwise folds the `if vals[i] < min` comparison
over the values. -/
def goMin (vals : List Nat) : Nat :=
  match vals with
  | [] => 0
  | v :: vs => vs.foldl (fun m x => if x < m then x else m) v

/-- Embeds the inner `for j` loop of `levenshtein` in `lib.go`: given the
current character `x` of `s1`, the remaining characters of `s2`, the
segment of the previous row `v0` starting at the current column, and the
cell to the left (`v1[j]`), produces the cells `v1[j+1], v1[j+2], …`.
The two ill-formed row patterns are unreachable when the row has length
`s2.length + 1`, as it does in `levenshtein`. -/
def levRowAux {α : Type} [DecidableEq α] (x : α) : List α → List Nat → Nat → List Nat
  | [], _, _ => []
  | _ :: _, [], _ => []
  | _ :: _, [_], _ => []
  | y :: ys, d :: e :: v0rest, left =>
    let cell := if x = y then goMin [left + 1, e + 1, d]
                else goMin [left + 1, e + 1, d + 1]
    cell :: levRowAux x ys (e :: v0rest) cell

/-- Embeds the outer `for i` loop of `levenshtein` in `lib.go`: processes
the remaining characters of `s1`, carrying the previous row `v0` and the
row index `i`; each iteration builds `v1` with `v1[0] = i + 1` and the
inner loop, then continues with `v0 := v1` (the `copy(v0, v1)` of the
source). Returns the final row. -/
def levLoop {α : Type} [DecidableEq α] (s2 : List α) : List α → List Nat → Nat → List Nat
  | [], v0, _ => v0
  | x :: xs, v0, i => levLoop s2 xs ((i + 1) :: levRowAux x s2 v0 (i + 1)) (i + 1)

/-- Embeds `levenshtein` of `lib.go` (iterative two-row dynamic
programming): equal strings answer 0, an empty string answers the other
length, otherwise the rolling-row loop runs and the last cell of the
final row (`v1[n2]`) is returned. -/
def levenshtein {α : Type} [DecidableEq α] (s1 s2 : List α) : Nat :=
  if s1 = s2 then 0
  else if s1.length = 0 then s2.length
  else if s2.length = 0 then s1.length
  else (levLoop s2 s1 (List.range (s2.length + 1)) 0).getLastD 0

/-- `levenshtein` of `lib.go` applied to Go strings, modelled by their
character sequences. -/
def levenshteinStr (s1 s2 : String) : Nat :=
  levenshtein s1.data s2.data

/-- Spec-side definition, following the spec's glossary: one
single-character edit — the insertion, deletion, or substitution of one
character at some position of the sequence. -/
inductive EditStep {α : Type} : List α → List α → Prop where
  | insert (pre suf : List α) (a : α) : EditStep (pre ++ suf) (pre ++ a :: suf)
  | delete (pre suf : List α) (a : α) : EditStep (pre ++ a :: suf) (pre ++ suf)
  | substitute (pre suf : List α) (a b : α) : EditStep (pre ++ a :: suf) (pre ++ b :: suf)

/-- Spec-side definition: `CanTransform n s t` holds when `s` can be
transformed into `t` by a chain of `n` single-character edits.  The
Levenshtein distance of the spec is the least such `n`. -/
inductive CanTransform {α : Type} : Nat → List α → List α → Prop where
  | refl (l : List α) : CanTransform 0 l l
  | step {n : Nat} {a b c : List α} :
      EditStep a b → CanTransform n b c → CanTransform (n + 1) a c

/-- Recursive form of the Levenshtein recurrence, with exactly the
per-cell formula of the DP of `levenshtein` in `lib.go`
(`min(v1[j]+1, v0[j+1]+1, v0[j]+cost)`); the bridge between the
rolling-row implementation and the minimum-edit characterisation. -/
def editDist {α : Type} [DecidableEq α] : List α → List α → Nat
  | [], ys => ys.length
  | _ :: xs, [] => xs.length + 1
  | x :: xs, y :: ys =>
    min (min (editDist (x :: xs) ys + 1) (editDist xs (y :: ys) + 1))
      (editDist xs ys + (if x = y then 0 else 1))
termination_by s1 s2 => (s1.length, s2.length)

/-- The row of distances from `p` to the successive extensions of `u`
along `q`: the shape of the DP rows of `levenshtein`. -/
def rowFrom {α : Type} [DecidableEq α] (p u : List α) : List α → List Nat
  | [] => [editDist p u]
  | y :: ys => editDist p u :: rowFrom p (u ++ [y]) ys

/-- Embeds the `Config` struct of `lib.go` (the decoded shape of a
`.gotag.json` / `.gotag.yml` file). -/
structure Config where
  Skip : List String
  Run : List String
  Fuzzy : Bool
  EditDistance : Int
deriving DecidableEq

/-- Embeds the `TestContext` struct of `lib.go`; the `skip` and
`runOnly` Go maps (used as string sets) are modelled as the lists of
their keys. -/
structure TestContext where
  skip : List String
  runOnly : List String
  Verbose : Bool
  EditDistance : Int
  Fuzzy : Bool
deriving DecidableEq

/-- Adding a key to a Go `map[string]bool` set (`m[tag] = true`): a
no-op when the key is already present. -/
def mapInsert (m : List String) (tag : String) : List String :=
  if tag ∈ m then m else m ++ [tag]

/-- Embeds `New` of `lib.go`: empty maps, `EditDistance` 2, and the Go
zero value `false` for `Verbose` and `Fuzzy`. -/
def New : TestContext :=
  { skip := [], runOnly := [], Verbose := false, EditDistance := 2, Fuzzy := false }

/-- Embeds the `Skip` method of `lib.go` (variadic tags as a list). -/
def TestContext.Skip (tc : TestContext) (tags : List String) : TestContext :=
  { tc with skip := tags.foldl mapInsert tc.skip }

/-- Embeds the `RunOnly` method of `lib.go` (variadic tags as a list). -/
def TestContext.RunOnly (tc : TestContext) (tags : List String) : TestContext :=
  { tc with runOnly := tags.foldl mapInsert tc.runOnly }

/-- Embeds `keys` of `lib.go`: the keys of a set-map, in iteration
order. -/
def keys (m : List String) : List String := m

/-- Embeds the `SkippedTags` method of `lib.go`. -/
def TestContext.SkippedTags (tc : TestContext) : List String := keys tc.skip

/-- Embeds the `RunTags` method of `lib.go`. -/
def TestContext.RunTags (tc : TestContext) : List String := keys tc.runOnly

/-- Embeds `toMap` of `lib.go`. -/
def toMap (s : List String) : List String := s.foldl mapInsert []

/-- Embeds `fromConfig` of `lib.go`; `Verbose` is left at its Go zero
value. -/
def fromConfig (config : Config) : TestContext :=
  { skip := toMap config.Skip, runOnly := toMap config.Run, Verbose := false,
    Fuzzy := config.Fuzzy, EditDistance := config.EditDistance }

/-- Embeds the `skipReason` enumeration of `lib.go`. -/
inductive skipReason where
  | doNotSkip
  | doNotSkipFuzzy
  | foundInSkip
  | fuzzyMatchSkip
  | notInRunOnly
deriving DecidableEq

/-- Embeds the `checkFuzzy` method of `lib.go`: scan the collection and
return the first entry whose `levenshtein` distance to `tag` is not
greater than `EditDistance` (`("", false)` when none is). -/
def TestContext.checkFuzzy (tc : TestContext) (tag : String) : List String → String × Bool
  | [] => ("", false)
  | k :: ks =>
    if (levenshteinStr k tag : Int) > tc.EditDistance then tc.checkFuzzy tag ks
    else (k, true)

/-- Embeds the `shouldSkip` method of `lib.go`. -/
def TestContext.shouldSkip (tc : TestContext) (tag : String) : String × skipReason :=
  if tc.runOnly.length > 0 then
    if tag ∈ tc.runOnly then ("", skipReason.doNotSkip)
    else if !tc.Fuzzy then ("", skipReason.notInRunOnly)
    else
      let res := tc.checkFuzzy tag tc.runOnly
      if !res.2 then ("", skipReason.notInRunOnly)
      else (res.1, skipReason.doNotSkipFuzzy)
  else
    if tag ∈ tc.skip then ("", skipReason.foundInSkip)
    else if !tc.Fuzzy then ("", skipReason.doNotSkip)
    else
      let res := tc.checkFuzzy tag tc.skip
      if !res.2 then ("", skipReason.doNotSkip)
      else (res.1, skipReason.fuzzyMatchSkip)

/-- The two outcomes the `run` method of `lib.go` takes for a test
body: invoke `SkipNow` on the handle, or run the body. -/
inductive Decision where
  | Proceed
  | Skip
deriving DecidableEq

/-- The control flow of the `run` method of `lib.go` (and hence of the
`Test`/`Benchmark` wrappers): which `shouldSkip` reasons call `SkipNow`
and which run the body. -/
def TestContext.resolve (tc : TestContext) (tag : String) : Decision :=
  match tc.shouldSkip tag with
  | (_, skipReason.foundInSkip) => Decision.Skip
  | (_, skipReason.notInRunOnly) => Decision.Skip
  | (_, skipReason.fuzzyMatchSkip) => Decision.Skip
  | (_, skipReason.doNotSkipFuzzy) => Decision.Proceed
  | (_, skipReason.doNotSkip) => Decision.Proceed

/-- The errors `Load` and `LoadFrom` of `lib.go` can return: the
`ErrNoConfig` sentinel, or an error of the JSON/YAML decoder
(modelled as the decoder's message). -/
inductive LoadError where
  | ErrNoConfig : LoadError
  | parseError : String → LoadError
deriving DecidableEq

/-- Embeds `Load` of `lib.go`. File I/O is abstracted: `openf` maps a
path to `some` contents (of abstract type `σ`) when `os.Open` succeeds
and to `none` when it fails, and `jsonDec`/`yamlDec` stand for
`loadJSONConfig`/`loadYAMLConfig`, returning the parsed `Config` or the
format-specific decode error. -/
def Load {σ : Type} (openf : String → Option σ)
    (jsonDec yamlDec : σ → Except String Config) : Except LoadError TestContext :=
  match openf ".gotag.json" with
  | some f =>
    match jsonDec f with
    | Except.ok config => Except.ok (fromConfig config)
    | Except.error e => Except.error (LoadError.parseError e)
  | none =>
    match openf ".gotag.yml" with
    | some f =>
      match yamlDec f with
      | Except.ok config => Except.ok (fromConfig config)
      | Except.error e => Except.error (LoadError.parseError e)
    | none => Except.error LoadError.ErrNoConfig

/-- The directory normalisation of `LoadFrom` in `lib.go`:
`if dir[len(dir)-1] != '/' { dir = dir + "/" }` (meaningful only for
non-empty `dir`; the last byte is `'/'` exactly when the last character
is, since UTF-8 continuation bytes are never `0x2F`). -/
def normDir (dir : String) : String :=
  if dir.back ≠ '/' then dir ++ "/" else dir

/-- Embeds `LoadFrom` of `lib.go`, abstracting file I/O as in `Load`.
The result is `none` when the Go code panics: `dir[len(dir)-1]` indexes
out of range when `dir` is the empty string. -/
def LoadFrom {σ : Type} (openf : String → Option σ)
    (jsonDec yamlDec : σ → Except String Config) (dir : String) :
    Option (Except LoadError TestContext) :=
  if dir.length = 0 then none
  else
    let d := normDir dir
    some (match openf (d ++ ".gotag.json") with
      | some f =>
        match jsonDec f with
        | Except.ok config => Except.ok (fromConfig config)
        | Except.error e => Except.error (LoadError.parseError e)
      | none =>
        match openf (d ++ ".gotag.yml") with
        | some f =>
          match yamlDec f with
          | Except.ok config => Except.ok (fromConfig config)
          | Except.error e => Except.error (LoadError.parseError e)
        | none => Except.error LoadError.ErrNoConfig)

theorem goMin_three (a b c : Nat) : goMin [a, b, c] = min (min a b) c := by
  simp only [goMin, List.foldl, Nat.min_def]
  split_ifs <;> omega

theorem editDist_nil {α : Type} [DecidableEq α] (ys : List α) :
    editDist [] ys = ys.length := by
  simp [editDist]

theorem editDist_nil_right {α : Type} [DecidableEq α] (xs : List α) :
    editDist xs [] = xs.length := by
  cases xs <;> simp [editDist]

theorem editDist_cons_cons {α : Type} [DecidableEq α] (x y : α) (xs ys : List α) :
    editDist (x :: xs) (y :: ys) =
      min (min (editDist (x :: xs) ys + 1) (editDist xs (y :: ys) + 1))
        (editDist xs ys + (if x = y then 0 else 1)) := by
  simp [editDist]

theorem editDist_self {α : Type} [DecidableEq α] (l : List α) : editDist l l = 0 := by
  induction l with
  | nil => simp [editDist]
  | cons x xs ih => rw [editDist_cons_cons]; simp [ih]

theorem editDist_comm {α : Type} [DecidableEq α] :
    (s t : List α) → editDist s t = editDist t s
  | [], t => by simp [editDist_nil, editDist_nil_right]
  | _ :: _, [] => by simp [editDist_nil, editDist_nil_right]
  | x :: xs, y :: ys => by
    rw [editDist_cons_cons, editDist_cons_cons]
    rw [editDist_comm (x :: xs) ys, editDist_comm xs (y :: ys), editDist_comm xs ys]
    have hcost : (if x = y then 0 else 1) = (if y = x then 0 else 1) := by
      by_cases h : x = y
      · simp [h]
      · rw [if_neg h, if_neg (fun hyx => h hyx.symm)]
    rw [hcost, Nat.min_comm (editDist ys (x :: xs) + 1) (editDist (y :: ys) xs + 1)]
termination_by s t => s.length + t.length
decreasing_by all_goals (simp only [List.length_cons]; omega)

/-- Deleting the head character changes the distance by at most one. -/
theorem editDist_cons_le {α : Type} [DecidableEq α] (z : α) (u c : List α) :
    editDist (z :: u) c ≤ editDist u c + 1 := by
  cases c with
  | nil => simp [editDist_nil_right]
  | cons y c' =>
    rw [editDist_cons_cons]
    have : min (min (editDist (z :: u) c' + 1) (editDist u (y :: c') + 1))
        (editDist u c' + (if z = y then 0 else 1)) ≤ editDist u (y :: c') + 1 := by omega
    exact this

/-- Dropping the head character of the second argument changes the
distance by at most one. -/
theorem editDist_le_cons_right {α : Type} [DecidableEq α] (y : α) (u c : List α) :
    editDist u (y :: c) ≤ editDist u c + 1 := by
  rw [editDist_comm u (y :: c), editDist_comm u c]
  exact editDist_cons_le y c u

/-- Inserting or substituting the head character of the first argument
changes the distance by at most one. -/
theorem editDist_head_perturb {α : Type} [DecidableEq α] :
    (u c : List α) → (∀ z : α, editDist u c ≤ editDist (z :: u) c + 1) ∧
      (∀ z w : α, editDist (z :: u) c ≤ editDist (w :: u) c + 1)
  | u, [] => by
    refine ⟨fun z => ?_, fun z w => ?_⟩ <;>
      (simp only [editDist_nil_right, List.length_cons]; omega)
  | u, y :: c' => by
    have ih1 := (editDist_head_perturb u c').1
    have ih5 := (editDist_head_perturb u c').2
    refine ⟨fun z => ?_, fun z w => ?_⟩
    · rw [editDist_cons_cons]
      have h1 := ih1 z
      have h4 := editDist_le_cons_right y u c'
      split <;> omega
    · rw [editDist_cons_cons, editDist_cons_cons]
      have h1 := ih5 z w
      split_ifs <;> omega
termination_by u c => u.length + c.length
decreasing_by all_goals (simp only [List.length_cons]; omega)

/-- Editing one character anywhere in the first argument changes the
distance to any fixed list by at most one (all three edit kinds). -/
theorem editDist_mid_perturb {α : Type} [DecidableEq α] (suf : List α) (z w : α) :
    (pre c : List α) →
      (editDist (pre ++ suf) c ≤ editDist (pre ++ z :: suf) c + 1) ∧
      (editDist (pre ++ z :: suf) c ≤ editDist (pre ++ suf) c + 1) ∧
      (editDist (pre ++ z :: suf) c ≤ editDist (pre ++ w :: suf) c + 1)
  | [], c => by
    refine ⟨?_, ?_, ?_⟩
    · exact (editDist_head_perturb suf c).1 z
    · exact editDist_cons_le z suf c
    · exact (editDist_head_perturb suf c).2 z w
  | x :: pre', [] => by
    simp only [List.cons_append, editDist_nil_right, List.length_cons, List.length_append]
    omega
  | x :: pre', y :: c' => by
    have iha := editDist_mid_perturb suf z w pre' (y :: c')
    have ihb := editDist_mid_perturb suf z w (x :: pre') c'
    have ihc := editDist_mid_perturb suf z w pre' c'
    obtain ⟨a1, a2, a3⟩ := iha
    obtain ⟨b1, b2, b3⟩ := ihb
    obtain ⟨d1, d2, d3⟩ := ihc
    simp only [List.cons_append] at *
    refine ⟨?_, ?_, ?_⟩ <;>
      (rw [editDist_cons_cons, editDist_cons_cons]; split_ifs <;> omega)
termination_by pre c => pre.length + c.length
decreasing_by all_goals (simp only [List.length_cons]; omega)

/-- One edit of the first argument changes the distance to any third
list by at most one. -/
theorem editDist_editStep_le {α : Type} [DecidableEq α] {a b : List α}
    (h : EditStep a b) (c : List α) : editDist a c ≤ editDist b c + 1 := by
  cases h with
  | insert pre suf x => exact (editDist_mid_perturb suf x x pre c).1
  | delete pre suf x => exact (editDist_mid_perturb suf x x pre c).2.1
  | substitute pre suf x y => exact (editDist_mid_perturb suf x y pre c).2.2

theorem CanTransform.snoc {α : Type} {n : Nat} {a b c : List α}
    (h : CanTransform n a b) (hs : EditStep b c) : CanTransform (n + 1) a c := by
  induction h with
  | refl l => exact CanTransform.step hs (CanTransform.refl c)
  | step h1 _ ih => exact CanTransform.step h1 (ih hs)

theorem EditStep.consHeadStep {α : Type} {u v : List α} (x : α) (h : EditStep u v) :
    EditStep (x :: u) (x :: v) := by
  cases h with
  | insert pre suf a => exact EditStep.insert (x :: pre) suf a
  | delete pre suf a => exact EditStep.delete (x :: pre) suf a
  | substitute pre suf a b => exact EditStep.substitute (x :: pre) suf a b

theorem CanTransform.consHeadChain {α : Type} {n : Nat} {u v : List α} (x : α)
    (h : CanTransform n u v) : CanTransform n (x :: u) (x :: v) := by
  induction h with
  | refl l => exact CanTransform.refl (x :: l)
  | step h1 _ ih => exact CanTransform.step (h1.consHeadStep x) ih

theorem canTransform_nil_left {α : Type} : (b : List α) → CanTransform b.length [] b
  | [] => CanTransform.refl []
  | y :: b' => (canTransform_nil_left b').snoc (EditStep.insert [] b' y)

theorem canTransform_nil_right {α : Type} : (a : List α) → CanTransform a.length a []
  | [] => CanTransform.refl []
  | x :: a' => CanTransform.step (EditStep.delete [] a' x) (canTransform_nil_right a')

/-- The Levenshtein recurrence value is achievable: `editDist a b` edits
transform `a` into `b`. -/
theorem editDist_achievable {α : Type} [DecidableEq α] :
    (a b : List α) → CanTransform (editDist a b) a b
  | [], b => by rw [editDist_nil]; exact canTransform_nil_left b
  | x :: a', [] => by rw [editDist_nil_right]; exact canTransform_nil_right (x :: a')
  | x :: a', y :: b' => by
    rw [editDist_cons_cons]
    have hA := editDist_achievable (x :: a') b'
    have hB := editDist_achievable a' (y :: b')
    have hC := editDist_achievable a' b'
    set m := min (min (editDist (x :: a') b' + 1) (editDist a' (y :: b') + 1))
        (editDist a' b' + (if x = y then 0 else 1)) with hm
    have hcases : m = editDist (x :: a') b' + 1 ∨ m = editDist a' (y :: b') + 1 ∨
        m = editDist a' b' + (if x = y then 0 else 1) := by
      rw [hm]; split_ifs <;> omega
    rcases hcases with h | h | h
    · rw [h]; exact hA.snoc (EditStep.insert [] b' y)
    · rw [h]; exact CanTransform.step (EditStep.delete [] a' x) hB
    · rw [h]
      by_cases hxy : x = y
      · rw [if_pos hxy]; subst hxy; simpa using hC.consHeadChain x
      · rw [if_neg hxy]
        exact CanTransform.step (EditStep.substitute [] a' x y) (hC.consHeadChain y)
termination_by a b => a.length + b.length
decreasing_by all_goals (simp only [List.length_cons]; omega)

/-- The Levenshtein recurrence value is optimal: no chain of edits
transforming `a` into `b` is shorter than `editDist a b`. -/
theorem editDist_le_of_canTransform {α : Type} [DecidableEq α] {n : Nat} {a b : List α}
    (h : CanTransform n a b) : editDist a b ≤ n := by
  induction h with
  | refl l => simp [editDist_self]
  | step h1 _ ih =>
    exact le_trans (editDist_editStep_le h1 _) (Nat.add_le_add_right ih 1)

theorem EditStep.revStep {α : Type} {u v : List α} (h : EditStep u v) :
    EditStep u.reverse v.reverse := by
  cases h with
  | insert pre suf a =>
    have h1 : (pre ++ suf).reverse = suf.reverse ++ pre.reverse := by simp
    have h2 : (pre ++ a :: suf).reverse = suf.reverse ++ a :: pre.reverse := by simp
    rw [h1, h2]; exact EditStep.insert suf.reverse pre.reverse a
  | delete pre suf a =>
    have h1 : (pre ++ suf).reverse = suf.reverse ++ pre.reverse := by simp
    have h2 : (pre ++ a :: suf).reverse = suf.reverse ++ a :: pre.reverse := by simp
    rw [h1, h2]; exact EditStep.delete suf.reverse pre.reverse a
  | substitute pre suf a b =>
    have h2 : (pre ++ a :: suf).reverse = suf.reverse ++ a :: pre.reverse := by simp
    have h3 : (pre ++ b :: suf).reverse = suf.reverse ++ b :: pre.reverse := by simp
    rw [h2, h3]; exact EditStep.substitute suf.reverse pre.reverse a b

theorem CanTransform.revChain {α : Type} {n : Nat} {u v : List α} (h : CanTransform n u v) :
    CanTransform n u.reverse v.reverse := by
  induction h with
  | refl l => exact CanTransform.refl l.reverse
  | step h1 _ ih => exact CanTransform.step h1.revStep ih

theorem editDist_reverse {α : Type} [DecidableEq α] (a b : List α) :
    editDist a.reverse b.reverse = editDist a b := by
  apply le_antisymm
  · exact editDist_le_of_canTransform (editDist_achievable a b).revChain
  · have h := (editDist_achievable a.reverse b.reverse).revChain
    simp only [List.reverse_reverse] at h
    exact editDist_le_of_canTransform h

/-- The Levenshtein recurrence read at the right end of both lists:
exactly the cell formula evaluated by the DP of `levenshtein`. -/
theorem editDist_concat_concat {α : Type} [DecidableEq α] (x y : α) (u v : List α) :
    editDist (u ++ [x]) (v ++ [y]) =
      min (min (editDist (u ++ [x]) v + 1) (editDist u (v ++ [y]) + 1))
        (editDist u v + (if x = y then 0 else 1)) := by
  have h1 : editDist (u ++ [x]) (v ++ [y]) = editDist (x :: u.reverse) (y :: v.reverse) := by
    rw [← editDist_reverse]; simp
  have h2 : editDist (u ++ [x]) v = editDist (x :: u.reverse) v.reverse := by
    rw [← editDist_reverse]; simp
  have h3 : editDist u (v ++ [y]) = editDist u.reverse (y :: v.reverse) := by
    rw [← editDist_reverse]; simp
  have h4 : editDist u v = editDist u.reverse v.reverse := (editDist_reverse u v).symm
  rw [h1, h2, h3, h4, editDist_cons_cons]

theorem rowFrom_head {α : Type} [DecidableEq α] (p u : List α) (q : List α) :
    ∃ t, rowFrom p u q = editDist p u :: t := by
  cases q <;> exact ⟨_, rfl⟩

/-- The inner loop of `levenshtein` advances a distance row: fed the row
for `p`, it produces the row for `p ++ [x]` (minus its first cell, which
the outer loop supplies). -/
theorem levRowAux_rowFrom {α : Type} [DecidableEq α] (x : α) (p : List α) :
    (q u : List α) →
      levRowAux x q (rowFrom p u q) (editDist (p ++ [x]) u) =
        (rowFrom (p ++ [x]) u q).tail
  | [], u => by simp [levRowAux, rowFrom]
  | y :: ys, u => by
    obtain ⟨t, ht⟩ := rowFrom_head p (u ++ [y]) ys
    obtain ⟨t2, ht2⟩ := rowFrom_head (p ++ [x]) (u ++ [y]) ys
    have hcell : (if x = y then
          goMin [editDist (p ++ [x]) u + 1, editDist p (u ++ [y]) + 1, editDist p u]
        else
          goMin [editDist (p ++ [x]) u + 1, editDist p (u ++ [y]) + 1, editDist p u + 1]) =
        editDist (p ++ [x]) (u ++ [y]) := by
      rw [editDist_concat_concat]
      by_cases hxy : x = y <;> simp [hxy, goMin_three]
    simp only [rowFrom, List.tail_cons]
    rw [ht]
    simp only [levRowAux]
    rw [hcell, ← ht, levRowAux_rowFrom x p ys (u ++ [y]), ht2]
    simp

/-- The outer loop of `levenshtein` turns the distance row for prefix
`p` into the distance row for `p ++ rest`. -/
theorem levLoop_rowFrom {α : Type} [DecidableEq α] (s2 : List α) :
    (rest p : List α) →
      levLoop s2 rest (rowFrom p [] s2) p.length = rowFrom (p ++ rest) [] s2
  | [], p => by simp [levLoop]
  | x :: xs, p => by
    simp only [levLoop]
    have h1 : p.length + 1 = editDist (p ++ [x]) [] := by
      simp [editDist_nil_right]
    have h2 : (p.length + 1) :: levRowAux x s2 (rowFrom p [] s2) (p.length + 1) =
        rowFrom (p ++ [x]) [] s2 := by
      obtain ⟨t, ht⟩ := rowFrom_head (p ++ [x]) ([] : List α) s2
      rw [h1, levRowAux_rowFrom x p s2 [], ht]
      simp
    rw [h2]
    have h3 : p.length + 1 = (p ++ [x]).length := by simp
    rw [h3, levLoop_rowFrom s2 xs (p ++ [x])]
    simp

theorem rowFrom_getLast {α : Type} [DecidableEq α] (p : List α) :
    (q u : List α) → ∀ d : Nat, (rowFrom p u q).getLastD d = editDist p (u ++ q)
  | [], u => by intro d; simp [rowFrom]
  | y :: ys, u => by
    intro d
    simp only [rowFrom, List.getLastD_cons]
    rw [rowFrom_getLast p ys (u ++ [y]) (editDist p u)]
    simp

theorem rowFrom_nil {α : Type} [DecidableEq α] :
    (q u : List α) → rowFrom ([] : List α) u q = List.range' u.length (q.length + 1)
  | [], u => by simp [rowFrom, editDist_nil, List.range'_one]
  | y :: ys, u => by
    simp only [rowFrom, editDist_nil, List.length_cons]
    rw [rowFrom_nil ys (u ++ [y])]
    conv_rhs => rw [List.range'_succ]
    simp

/-- The rolling-row implementation of `lib.go` computes the Levenshtein
recurrence. -/
theorem levenshtein_eq_editDist {α : Type} [DecidableEq α] (s1 s2 : List α) :
    levenshtein s1 s2 = editDist s1 s2 := by
  unfold levenshtein
  split_ifs with h1 h2 h3
  · rw [h1, editDist_self]
  · rw [List.length_eq_zero.mp h2, editDist_nil]
  · rw [List.length_eq_zero.mp h3, editDist_nil_right]
  · have hinit : rowFrom ([] : List α) [] s2 = List.range (s2.length + 1) := by
      rw [rowFrom_nil s2 [], List.range_eq_range']
      simp
    rw [← hinit]
    have hloop := levLoop_rowFrom s2 s1 []
    simp only [List.length_nil, List.nil_append] at hloop
    rw [hloop, rowFrom_getLast]
    simp

/-! Helper lemmas about `checkFuzzy`, `shouldSkip` and `resolve`. -/

theorem checkFuzzy_mem {tc : TestContext} {tag : String} :
    (l : List String) → (tc.checkFuzzy tag l).2 = true →
      (tc.checkFuzzy tag l).1 ∈ l ∧
        (levenshteinStr (tc.checkFuzzy tag l).1 tag : Int) ≤ tc.EditDistance
  | [], h => by simp [TestContext.checkFuzzy] at h
  | k :: ks, h => by
    by_cases hk : (levenshteinStr k tag : Int) > tc.EditDistance
    · simp only [TestContext.checkFuzzy, if_pos hk] at h ⊢
      have hrec := checkFuzzy_mem ks h
      exact ⟨List.mem_cons_of_mem k hrec.1, hrec.2⟩
    · simp only [TestContext.checkFuzzy, if_neg hk]
      exact ⟨List.mem_cons_self k ks, by omega⟩

theorem checkFuzzy_true_iff (tc : TestContext) (tag : String) :
    (l : List String) → ((tc.checkFuzzy tag l).2 = true ↔
      ∃ k ∈ l, (levenshteinStr k tag : Int) ≤ tc.EditDistance)
  | [] => by simp [TestContext.checkFuzzy]
  | k :: ks => by
    by_cases hk : (levenshteinStr k tag : Int) > tc.EditDistance
    · simp only [TestContext.checkFuzzy, if_pos hk]
      rw [checkFuzzy_true_iff tc tag ks]
      constructor
      · rintro ⟨k', hk', hle⟩
        exact ⟨k', List.mem_cons_of_mem k hk', hle⟩
      · rintro ⟨k', hk', hle⟩
        rcases List.mem_cons.mp hk' with rfl | hmem
        · omega
        · exact ⟨k', hmem, hle⟩
    · simp only [TestContext.checkFuzzy, if_neg hk]
      constructor
      · intro _
        exact ⟨k, List.mem_cons_self k ks, by omega⟩
      · intro _
        trivial

theorem checkFuzzy_skip_indep (tc : TestContext) (s : List String) (tag : String) :
    (l : List String) →
      ({tc with skip := s} : TestContext).checkFuzzy tag l = tc.checkFuzzy tag l
  | [] => rfl
  | k :: ks => by
    simp only [TestContext.checkFuzzy]
    rw [checkFuzzy_skip_indep tc s tag ks]

theorem shouldSkip_skip_indep (tc : TestContext) (s : List String) (tag : String)
    (h : tc.runOnly ≠ []) :
    ({tc with skip := s} : TestContext).shouldSkip tag = tc.shouldSkip tag := by
  have hlen : 0 < tc.runOnly.length := List.length_pos.mpr h
  simp [TestContext.shouldSkip, checkFuzzy_skip_indep, hlen]

theorem resolve_skip_indep (tc : TestContext) (s : List String) (tag : String)
    (h : tc.runOnly ≠ []) :
    ({tc with skip := s} : TestContext).resolve tag = tc.resolve tag := by
  unfold TestContext.resolve
  rw [shouldSkip_skip_indep tc s tag h]

theorem resolve_eq_skip {tc : TestContext} {tag m : String} {r : skipReason}
    (h : tc.shouldSkip tag = (m, r))
    (hr : r = skipReason.foundInSkip ∨ r = skipReason.notInRunOnly ∨
      r = skipReason.fuzzyMatchSkip) :
    tc.resolve tag = Decision.Skip := by
  unfold TestContext.resolve
  rw [h]
  rcases hr with rfl | rfl | rfl <;> rfl

theorem resolve_eq_proceed {tc : TestContext} {tag m : String} {r : skipReason}
    (h : tc.shouldSkip tag = (m, r))
    (hr : r = skipReason.doNotSkip ∨ r = skipReason.doNotSkipFuzzy) :
    tc.resolve tag = Decision.Proceed := by
  unfold TestContext.resolve
  rw [h]
  rcases hr with rfl | rfl <;> rfl

theorem shouldSkip_runOnly_mem {tc : TestContext} {tag : String}
    (h : tc.runOnly ≠ []) (hmem : tag ∈ tc.runOnly) :
    tc.shouldSkip tag = ("", skipReason.doNotSkip) := by
  have hlen : 0 < tc.runOnly.length := List.length_pos.mpr h
  simp [TestContext.shouldSkip, hlen, hmem]

theorem shouldSkip_runOnly_notMem_strict {tc : TestContext} {tag : String}
    (h : tc.runOnly ≠ []) (hmem : tag ∉ tc.runOnly) (hf : tc.Fuzzy = false) :
    tc.shouldSkip tag = ("", skipReason.notInRunOnly) := by
  have hlen : 0 < tc.runOnly.length := List.length_pos.mpr h
  simp [TestContext.shouldSkip, hlen, hmem, hf]

theorem shouldSkip_runOnly_fuzzy {tc : TestContext} {tag : String}
    (h : tc.runOnly ≠ []) (hmem : tag ∉ tc.runOnly) (hf : tc.Fuzzy = true) :
    tc.shouldSkip tag =
      (if (tc.checkFuzzy tag tc.runOnly).2 then
        ((tc.checkFuzzy tag tc.runOnly).1, skipReason.doNotSkipFuzzy)
      else ("", skipReason.notInRunOnly)) := by
  have hlen : 0 < tc.runOnly.length := List.length_pos.mpr h
  by_cases hc : (tc.checkFuzzy tag tc.runOnly).2 <;>
    simp [TestContext.shouldSkip, hlen, hmem, hf, hc]

theorem shouldSkip_skip_mem {tc : TestContext} {tag : String}
    (h : tc.runOnly = []) (hmem : tag ∈ tc.skip) :
    tc.shouldSkip tag = ("", skipReason.foundInSkip) := by
  simp [TestContext.shouldSkip, h, hmem]

theorem shouldSkip_skip_notMem_strict {tc : TestContext} {tag : String}
    (h : tc.runOnly = []) (hmem : tag ∉ tc.skip) (hf : tc.Fuzzy = false) :
    tc.shouldSkip tag = ("", skipReason.doNotSkip) := by
  simp [TestContext.shouldSkip, h, hmem, hf]

theorem shouldSkip_skip_fuzzy {tc : TestContext} {tag : String}
    (h : tc.runOnly = []) (hmem : tag ∉ tc.skip) (hf : tc.Fuzzy = true) :
    tc.shouldSkip tag =
      (if (tc.checkFuzzy tag tc.skip).2 then
        ((tc.checkFuzzy tag tc.skip).1, skipReason.fuzzyMatchSkip)
      else ("", skipReason.doNotSkip)) := by
  by_cases hc : (tc.checkFuzzy tag tc.skip).2 <;>
    simp [TestContext.shouldSkip, h, hmem, hf, hc]

/-- C1: for every policy state whose run-only set is non-empty, the
decision (`shouldSkip`/`resolve`) is independent of the contents of the
skip-set, and a tag that is an exact member of the run-only set
resolves to Proceed — even when the same tag is in the skip-set, for
every fuzzy flag and threshold (both quantified inside `tc`). -/
theorem claim_C1 (tc : TestContext) (tag : String) (h : tc.runOnly ≠ []) :
    (∀ s1 s2 : List String,
      ({tc with skip := s1} : TestContext).shouldSkip tag =
          ({tc with skip := s2} : TestContext).shouldSkip tag ∧
        ({tc with skip := s1} : TestContext).resolve tag =
          ({tc with skip := s2} : TestContext).resolve tag) ∧
    (tag ∈ tc.runOnly → tc.resolve tag = Decision.Proceed) := by
  constructor
  · intro s1 s2
    constructor
    · rw [shouldSkip_skip_indep tc s1 tag h, shouldSkip_skip_indep tc s2 tag h]
    · rw [resolve_skip_indep tc s1 tag h, resolve_skip_indep tc s2 tag h]
  · intro hmem
    exact resolve_eq_proceed (shouldSkip_runOnly_mem h hmem) (Or.inl rfl)

/-- Witness for C1: "tagA" is in both the skip-set and the run-only
set, fuzzy enabled, and still resolves to Proceed. -/
theorem claim_C1_witness :
    ({ skip := ["tagA"], runOnly := ["tagA"], Verbose := false, EditDistance := 2,
        Fuzzy := true } : TestContext).resolve "tagA" = Decision.Proceed :=
  (claim_C1
    { skip := ["tagA"], runOnly := ["tagA"], Verbose := false, EditDistance := 2,
      Fuzzy := true } "tagA" (by decide)).2 (by decide)

/-- C2: for every policy state whose run-only set is non-empty and
every tag not an exact member of it: with fuzzy disabled the decision
is Skip with reason `notInRunOnly`; with fuzzy enabled it is Proceed
reporting a run-only entry within the threshold when one exists, and
Skip (same reason) otherwise. -/
theorem claim_C2 (tc : TestContext) (tag : String)
    (h1 : tc.runOnly ≠ []) (h2 : tag ∉ tc.runOnly) :
    (tc.Fuzzy = false →
      tc.shouldSkip tag = ("", skipReason.notInRunOnly) ∧
      tc.resolve tag = Decision.Skip) ∧
    (tc.Fuzzy = true →
      ((∃ k ∈ tc.runOnly, (levenshteinStr k tag : Int) ≤ tc.EditDistance) →
        tc.resolve tag = Decision.Proceed ∧
        (tc.shouldSkip tag).1 ∈ tc.runOnly ∧
        (levenshteinStr (tc.shouldSkip tag).1 tag : Int) ≤ tc.EditDistance) ∧
      ((∀ k ∈ tc.runOnly, (levenshteinStr k tag : Int) > tc.EditDistance) →
        tc.shouldSkip tag = ("", skipReason.notInRunOnly) ∧
        tc.resolve tag = Decision.Skip)) := by
  refine ⟨fun hf => ?_, fun hf => ⟨fun hex => ?_, fun hall => ?_⟩⟩
  · have hs := shouldSkip_runOnly_notMem_strict h1 h2 hf
    exact ⟨hs, resolve_eq_skip hs (Or.inr (Or.inl rfl))⟩
  · have hcf : (tc.checkFuzzy tag tc.runOnly).2 = true :=
      (checkFuzzy_true_iff tc tag tc.runOnly).mpr hex
    have hs := shouldSkip_runOnly_fuzzy h1 h2 hf
    simp only [hcf, if_true] at hs
    have hmm := checkFuzzy_mem tc.runOnly hcf
    refine ⟨resolve_eq_proceed hs (Or.inr rfl), ?_, ?_⟩
    · rw [hs]; exact hmm.1
    · rw [hs]; exact hmm.2
  · have hcf : (tc.checkFuzzy tag tc.runOnly).2 = false := by
      rcases Bool.eq_false_or_eq_true (tc.checkFuzzy tag tc.runOnly).2 with hb | hb
      · rcases (checkFuzzy_true_iff tc tag tc.runOnly).mp hb with ⟨k, hk, hle⟩
        have := hall k hk
        omega
      · exact hb
    have hs := shouldSkip_runOnly_fuzzy h1 h2 hf
    simp only [hcf, Bool.false_eq_true, if_false] at hs
    exact ⟨hs, resolve_eq_skip hs (Or.inr (Or.inl rfl))⟩

/-- Witness for C2: fuzzy Proceed on "taga" (within distance 2 of
"tagA"), strict Skip on "tagB". -/
theorem claim_C2_witness :
    ({ skip := [], runOnly := ["tagA"], Verbose := false, EditDistance := 2,
        Fuzzy := true } : TestContext).resolve "taga" = Decision.Proceed ∧
    ({ skip := [], runOnly := ["tagA"], Verbose := false, EditDistance := 2,
        Fuzzy := false } : TestContext).resolve "tagB" = Decision.Skip :=
  ⟨(((claim_C2
      { skip := [], runOnly := ["tagA"], Verbose := false, EditDistance := 2,
        Fuzzy := true } "taga" (by decide) (by decide)).2 (by decide)).1
      ⟨"tagA", by decide, by decide⟩).1,
    ((claim_C2
      { skip := [], runOnly := ["tagA"], Verbose := false, EditDistance := 2,
        Fuzzy := false } "tagB" (by decide) (by decide)).1 (by decide)).2⟩

/-- C3: for every policy state whose run-only set is empty: an exact
skip-set member resolves to Skip; a non-member resolves to Proceed with
fuzzy disabled; with fuzzy enabled a non-member resolves to Skip
reporting a skip-set entry within the threshold when one exists, and to
Proceed otherwise. -/
theorem claim_C3 (tc : TestContext) (tag : String) (h : tc.runOnly = []) :
    (tag ∈ tc.skip → tc.resolve tag = Decision.Skip) ∧
    (tag ∉ tc.skip → tc.Fuzzy = false → tc.resolve tag = Decision.Proceed) ∧
    (tag ∉ tc.skip → tc.Fuzzy = true →
      ((∃ k ∈ tc.skip, (levenshteinStr k tag : Int) ≤ tc.EditDistance) →
        tc.resolve tag = Decision.Skip ∧
        (tc.shouldSkip tag).1 ∈ tc.skip ∧
        (levenshteinStr (tc.shouldSkip tag).1 tag : Int) ≤ tc.EditDistance) ∧
      ((∀ k ∈ tc.skip, (levenshteinStr k tag : Int) > tc.EditDistance) →
        tc.resolve tag = Decision.Proceed)) := by
  refine ⟨fun hmem => ?_, fun hmem hf => ?_, fun hmem hf => ⟨fun hex => ?_, fun hall => ?_⟩⟩
  · exact resolve_eq_skip (shouldSkip_skip_mem h hmem) (Or.inl rfl)
  · exact resolve_eq_proceed (shouldSkip_skip_notMem_strict h hmem hf) (Or.inl rfl)
  · have hcf : (tc.checkFuzzy tag tc.skip).2 = true :=
      (checkFuzzy_true_iff tc tag tc.skip).mpr hex
    have hs := shouldSkip_skip_fuzzy h hmem hf
    simp only [hcf, if_true] at hs
    have hmm := checkFuzzy_mem tc.skip hcf
    refine ⟨resolve_eq_skip hs (Or.inr (Or.inr rfl)), ?_, ?_⟩
    · rw [hs]; exact hmm.1
    · rw [hs]; exact hmm.2
  · have hcf : (tc.checkFuzzy tag tc.skip).2 = false := by
      rcases Bool.eq_false_or_eq_true (tc.checkFuzzy tag tc.skip).2 with hb | hb
      · rcases (checkFuzzy_true_iff tc tag tc.skip).mp hb with ⟨k, hk, hle⟩
        have := hall k hk
        omega
      · exact hb
    have hs := shouldSkip_skip_fuzzy h hmem hf
    simp only [hcf, Bool.false_eq_true, if_false] at hs
    exact resolve_eq_proceed hs (Or.inl rfl)

/-- Witness for C3: the spec's scenario — skip-set `{"integration"}`,
fuzzy off: "integration" is skipped, "unit" runs. -/
theorem claim_C3_witness :
    ({ skip := ["integration"], runOnly := [], Verbose := false, EditDistance := 2,
        Fuzzy := false } : TestContext).resolve "integration" = Decision.Skip ∧
    ({ skip := ["integration"], runOnly := [], Verbose := false, EditDistance := 2,
        Fuzzy := false } : TestContext).resolve "unit" = Decision.Proceed :=
  ⟨(claim_C3
      { skip := ["integration"], runOnly := [], Verbose := false, EditDistance := 2,
        Fuzzy := false } "integration" rfl).1 (by decide),
    ((claim_C3
      { skip := ["integration"], runOnly := [], Verbose := false, EditDistance := 2,
        Fuzzy := false } "unit" rfl).2.1 (by decide) rfl)⟩

/-- C4: `levenshtein` computes the Levenshtein edit distance: its value
is achievable by a chain of single-character insertions, deletions and
substitutions, and is minimal among all such chains; and it takes the
spec's concrete values, with distance 0 on every pair of equal
strings. -/
theorem claim_C4 :
    (∀ s1 s2 : List Char, CanTransform (levenshtein s1 s2) s1 s2 ∧
      ∀ n, CanTransform n s1 s2 → levenshtein s1 s2 ≤ n) ∧
    levenshteinStr "" "" = 0 ∧ levenshteinStr "" "abc" = 3 ∧
    levenshteinStr "kitten" "sitting" = 3 ∧
    (∀ s : String, levenshteinStr s s = 0) := by
  refine ⟨fun s1 s2 => ?_, by decide, by decide, by decide, fun s => ?_⟩
  · rw [levenshtein_eq_editDist]
    exact ⟨editDist_achievable s1 s2, fun n h => editDist_le_of_canTransform h⟩
  · unfold levenshteinStr
    rw [levenshtein_eq_editDist, editDist_self]

/-- Witness for C4: the minimality part applied at a concrete pair with
a concrete one-step chain. -/
theorem claim_C4_witness :
    CanTransform (levenshtein ['a'] ([] : List Char)) ['a'] [] ∧
      levenshtein ['a'] ([] : List Char) ≤ 1 :=
  ⟨(claim_C4.1 ['a'] []).1,
    (claim_C4.1 ['a'] []).2 1
      (CanTransform.step (EditStep.delete [] [] 'a') (CanTransform.refl []))⟩

/-- C5: with fuzzy matching enabled, a registered entry counts as a
fuzzy match iff its edit distance to the queried tag is at most the
threshold; distance equal to the threshold matches, strictly greater
does not. -/
theorem claim_C5 (tc : TestContext) (tag : String) (coll : List String)
    (_h : tc.Fuzzy = true) :
    ((tc.checkFuzzy tag coll).2 = true ↔
      ∃ k ∈ coll, (levenshteinStr k tag : Int) ≤ tc.EditDistance) ∧
    (∀ k : String, ((levenshteinStr k tag : Int) = tc.EditDistance →
        (tc.checkFuzzy tag [k]).2 = true) ∧
      ((levenshteinStr k tag : Int) > tc.EditDistance →
        (tc.checkFuzzy tag [k]).2 = false)) := by
  refine ⟨checkFuzzy_true_iff tc tag coll, fun k => ⟨fun he => ?_, fun hg => ?_⟩⟩
  · rw [checkFuzzy_true_iff]
    exact ⟨k, List.mem_cons_self k [], le_of_eq he⟩
  · simp [TestContext.checkFuzzy, hg]

/-- Witness for C5: distance exactly at the threshold (2) matches,
distance 3 does not. -/
theorem claim_C5_witness :
    (({ skip := [], runOnly := [], Verbose := false, EditDistance := 2,
        Fuzzy := true } : TestContext).checkFuzzy "" ["ab"]).2 = true ∧
    (({ skip := [], runOnly := [], Verbose := false, EditDistance := 2,
        Fuzzy := true } : TestContext).checkFuzzy "" ["abc"]).2 = false :=
  ⟨((claim_C5
      { skip := [], runOnly := [], Verbose := false, EditDistance := 2,
        Fuzzy := true } "" ["ab"] rfl).2 "ab").1 (by decide),
    ((claim_C5
      { skip := [], runOnly := [], Verbose := false, EditDistance := 2,
        Fuzzy := true } "" ["abc"] rfl).2 "abc").2 (by decide)⟩

/-- C6: the decision operation is total — for every policy state and
tag, `resolve` produces one of the two decisions (all Lean functions
here are total and terminating by construction); in particular the
malformed inputs named by the spec (empty tag string, negative
threshold) produce decisions rather than errors. -/
theorem claim_C6 :
    (∀ (tc : TestContext) (tag : String),
      tc.resolve tag = Decision.Proceed ∨ tc.resolve tag = Decision.Skip) ∧
    ({ skip := ["a"], runOnly := [], Verbose := false, EditDistance := -1,
        Fuzzy := true } : TestContext).resolve "" = Decision.Proceed ∧
    ({ skip := [], runOnly := ["a"], Verbose := false, EditDistance := -1,
        Fuzzy := true } : TestContext).resolve "" = Decision.Skip := by
  refine ⟨fun tc tag => ?_, by decide, by decide⟩
  cases htc : tc.resolve tag with
  | Proceed => exact Or.inl rfl
  | Skip => exact Or.inr rfl

/-- Counterexample for C7 as stated: the claim quantifies `LoadFrom`
over EVERY directory-path argument, but on the empty path the Go code
panics before any file access (`dir[len(dir)-1]` indexes out of range),
a third failure mode beyond `ErrNoConfig` and parse errors; the panic
is modelled as `none`. -/
theorem claim_C7_counterexample :
    LoadFrom (fun _ => (none : Option Unit)) (fun _ => Except.error "x")
        (fun _ => Except.error "x") "" = none ∧
    ¬ ∃ r : Except LoadError TestContext,
      LoadFrom (fun _ => (none : Option Unit)) (fun _ => Except.error "x")
        (fun _ => Except.error "x") "" = some r := by
  constructor
  · rfl
  · rintro ⟨r, hr⟩
    simp [LoadFrom] at hr

/-- C7 (amended): `Load`, and `LoadFrom` for every NON-empty directory
path, fail in exactly two ways — `ErrNoConfig` exactly when neither
`.gotag.json` nor `.gotag.yml` opens, and the format-specific decoder
error when the first file that opens fails to decode — and return a
test context built from the decoded config otherwise; `LoadFrom` on a
non-empty path behaves as `Load` with the normalised directory
prefixed (on the empty path the Go code panics). -/
theorem claim_C7 {σ : Type} (openf : String → Option σ)
    (jsonDec yamlDec : σ → Except String Config) (dir : String) (h : dir ≠ "") :
    (Load openf jsonDec yamlDec = Except.error LoadError.ErrNoConfig ↔
      openf ".gotag.json" = none ∧ openf ".gotag.yml" = none) ∧
    (∀ e, Load openf jsonDec yamlDec = Except.error (LoadError.parseError e) ↔
      ((∃ f, openf ".gotag.json" = some f ∧ jsonDec f = Except.error e) ∨
        (openf ".gotag.json" = none ∧
          ∃ f, openf ".gotag.yml" = some f ∧ yamlDec f = Except.error e))) ∧
    (∀ f c, openf ".gotag.json" = some f → jsonDec f = Except.ok c →
      Load openf jsonDec yamlDec = Except.ok (fromConfig c)) ∧
    (∀ f c, openf ".gotag.json" = none → openf ".gotag.yml" = some f →
      yamlDec f = Except.ok c →
      Load openf jsonDec yamlDec = Except.ok (fromConfig c)) ∧
    LoadFrom openf jsonDec yamlDec dir =
      some (Load (fun p => openf (normDir dir ++ p)) jsonDec yamlDec) := by
  have hLF : LoadFrom openf jsonDec yamlDec dir =
      some (Load (fun p => openf (normDir dir ++ p)) jsonDec yamlDec) := by
    have hlen : ¬ dir.length = 0 := by
      intro hl
      exact h (String.ext (List.length_eq_zero.mp hl))
    simp [LoadFrom, Load, hlen]
  refine ⟨?_, ?_, ?_, ?_, hLF⟩
  · constructor
    · intro hl
      rcases hj : openf ".gotag.json" with _ | f1
      · rcases hy : openf ".gotag.yml" with _ | f2
        · exact ⟨rfl, rfl⟩
        · rcases hd : yamlDec f2 with e | c <;> simp [Load, hj, hy, hd] at hl
      · rcases hd : jsonDec f1 with e | c <;> simp [Load, hj, hd] at hl
    · rintro ⟨hj, hy⟩
      simp [Load, hj, hy]
  · intro e
    constructor
    · intro hl
      rcases hj : openf ".gotag.json" with _ | f1
      · rcases hy : openf ".gotag.yml" with _ | f2
        · simp [Load, hj, hy] at hl
        · rcases hd : yamlDec f2 with e' | c
          · right
            refine ⟨rfl, f2, rfl, ?_⟩
            simp [Load, hj, hy, hd] at hl
            rw [hd, hl]
          · simp [Load, hj, hy, hd] at hl
      · rcases hd : jsonDec f1 with e' | c
        · left
          refine ⟨f1, rfl, ?_⟩
          simp [Load, hj, hd] at hl
          rw [hd, hl]
        · simp [Load, hj, hd] at hl
    · rintro (⟨f1, hj, hd⟩ | ⟨hj, f2, hy, hd⟩)
      · simp [Load, hj, hd]
      · simp [Load, hj, hy, hd]
  · intro f c hj hd
    simp [Load, hj, hd]
  · intro f c hj hy hd
    simp [Load, hj, hy, hd]

/-- Witness for C7 at a concrete non-empty path with no config files. -/
theorem claim_C7_witness :
    Load (fun _ => (none : Option Unit)) (fun _ => Except.error "x")
        (fun _ => Except.error "x") = Except.error LoadError.ErrNoConfig ∧
    LoadFrom (fun _ => (none : Option Unit)) (fun _ => Except.error "x")
        (fun _ => Except.error "x") "d" =
      some (Load (fun p => (fun _ => (none : Option Unit)) (normDir "d" ++ p))
        (fun _ => Except.error "x") (fun _ => Except.error "x")) :=
  ⟨(claim_C7 (fun _ => (none : Option Unit)) (fun _ => Except.error "x")
      (fun _ => Except.error "x") "d" (by decide)).1.mpr ⟨rfl, rfl⟩,
    (claim_C7 (fun _ => (none : Option Unit)) (fun _ => Except.error "x")
      (fun _ => Except.error "x") "d" (by decide)).2.2.2.2⟩

/-- C8: registration is idempotent — registering a tag that is already
in the corresponding set leaves the state unchanged, and registering
the same tag twice equals registering it once, hence every `resolve`
query and the reported tag lists coincide with those after the first
registration. -/
theorem claim_C8 (tc : TestContext) (t : String) :
    (t ∈ tc.skip → tc.Skip [t] = tc) ∧
    (t ∈ tc.runOnly → tc.RunOnly [t] = tc) ∧
    (tc.Skip [t]).Skip [t] = tc.Skip [t] ∧
    (tc.RunOnly [t]).RunOnly [t] = tc.RunOnly [t] ∧
    (∀ q, ((tc.Skip [t]).Skip [t]).resolve q = (tc.Skip [t]).resolve q) ∧
    (∀ q, ((tc.RunOnly [t]).RunOnly [t]).resolve q = (tc.RunOnly [t]).resolve q) ∧
    ((tc.Skip [t]).Skip [t]).SkippedTags = (tc.Skip [t]).SkippedTags ∧
    ((tc.RunOnly [t]).RunOnly [t]).RunTags = (tc.RunOnly [t]).RunTags := by
  have hmi2 : ∀ m, mapInsert (mapInsert m t) t = mapInsert m t := by
    intro m
    by_cases hm : t ∈ m
    · simp [mapInsert, hm]
    · simp [mapInsert, hm]
  have hskip2 : (tc.Skip [t]).Skip [t] = tc.Skip [t] := by
    simp [TestContext.Skip, List.foldl, hmi2]
  have hrun2 : (tc.RunOnly [t]).RunOnly [t] = tc.RunOnly [t] := by
    simp [TestContext.RunOnly, List.foldl, hmi2]
  refine ⟨fun hmem => ?_, fun hmem => ?_, hskip2, hrun2,
    fun q => by rw [hskip2], fun q => by rw [hrun2], by rw [hskip2], by rw [hrun2]⟩
  · have hmi : mapInsert tc.skip t = tc.skip := by simp [mapInsert, hmem]
    simp [TestContext.Skip, List.foldl, hmi]
  · have hmi : mapInsert tc.runOnly t = tc.runOnly := by simp [mapInsert, hmem]
    simp [TestContext.RunOnly, List.foldl, hmi]

/-- Witness for C8: re-registering an already-registered tag leaves a
concrete state unchanged. -/
theorem claim_C8_witness :
    ({ skip := ["a"], runOnly := ["b"], Verbose := false, EditDistance := 2,
        Fuzzy := false } : TestContext).Skip ["a"] =
      { skip := ["a"], runOnly := ["b"], Verbose := false, EditDistance := 2,
        Fuzzy := false } :=
  (claim_C8
    { skip := ["a"], runOnly := ["b"], Verbose := false, EditDistance := 2,
      Fuzzy := false } "a").1 (by decide)

/-- Counterexample for C9 as stated: a configuration record in which no
distance value was supplied decodes to the Go zero value
`EditDistance = 0` (neither `encoding/json` nor the YAML decoder
applies a default, and `fromConfig` copies the field verbatim), so the
loaded context has threshold 0, not 2. -/
theorem claim_C9_counterexample :
    (fromConfig
      { Skip := [], Run := [], Fuzzy := false, EditDistance := 0 }).EditDistance = 0 ∧
    (fromConfig
      { Skip := [], Run := [], Fuzzy := false, EditDistance := 0 }).EditDistance ≠ 2 := by
  exact ⟨rfl, by decide⟩

/-- C9 (amended): a context constructed via `New` has threshold 2; a
context built from a loaded configuration record has exactly the
record's distance value (hence 0, not 2, when none was supplied). -/
theorem claim_C9 :
    New.EditDistance = 2 ∧
    ∀ c : Config, (fromConfig c).EditDistance = c.EditDistance :=
  ⟨rfl, fun _ => rfl⟩

/-- C10: `levenshtein` is symmetric in its two string arguments. -/
theorem claim_C10 (s1 s2 : String) : levenshteinStr s1 s2 = levenshteinStr s2 s1 := by
  unfold levenshteinStr
  rw [levenshtein_eq_editDist, levenshtein_eq_editDist, editDist_comm]

end Gotag
